import Mathlib

/-!
Verification of the ECS image-inventory tool (`main.go`).

The program is a one-shot pipeline: enumerate the services of a cluster,
derive a short name per service (`splitArn`, last element of the split),
list the running tasks of each service (bounded worker pool), bulk-describe
the tasks in batches of 100 to learn the task-definition ARN of each task,
and describe each distinct task definition to learn its container images,
accumulating `imageToServices : image → set of service names`.

The embedding below is shallow and sequential: the remote ECS API is an
abstract `Client` record whose operations return `Option` (a `none` is a
failed call), Go maps (`map[string]...`) are association lists with
replace-on-insert semantics and zero-value lookup (`lookupD`), Go sets
(`map[string]struct{}`) are duplicate-free lists grown by `setInsert`.
The two bounded worker pools mutate their shared maps under one mutex and
all mutations are commutative set/map unions, so the final state of each
stage is modelled by a left fold over the work list; the concurrency cap
itself (at most 5 goroutines in flight) is a scheduling property outside
this embedding.
-/

set_option autoImplicit false

namespace EcsImages

/-- Response element of the bulk `DescribeTasks` call: the fields of an ECS
task the program reads (`task.TaskArn`, `task.TaskDefinitionArn`). -/
structure TaskDesc where
  taskArn : String
  taskDefinitionArn : String
  deriving DecidableEq, Repr

/-- Abstract ECS client: the four API operations the program performs.
`none` models a failed call. `listServices` is the already-concatenated
result of the `ListServices` pagination loop (a page error is fatal and is
modelled by `none`). `describeTasks` answers one bulk `DescribeTasks` call
for a batch of task ARNs; `describeTaskDefinition` returns the container
image URIs of one task definition. -/
structure Client where
  listServices : Option (List String)
  listTasks : String → Option (List String)
  describeTasks : List String → Option (List TaskDesc)
  describeTaskDefinition : String → Option (List String)

/-! ### `splitArn` (main.go lines 190-205)

The Go loop walks the string, emitting `arn[start:i]` at every `/`
(so interior empty segments are kept), and emits the tail `arn[start:]`
only when it is non-empty (`start < len(arn)`). -/

/-- Accumulator version of the `splitArn` loop: `cur` is the segment built
since the last `/` (the slice `arn[start:i]` in Go). -/
def splitArnGo : List Char → List Char → List (List Char)
  | [], cur => if cur = [] then [] else [cur]
  | c :: rest, cur => if c = '/' then cur :: splitArnGo rest [] else splitArnGo rest (cur ++ [c])

/-- Lean version of `splitArn` from main.go. -/
def splitArn (arn : String) : List String :=
  (splitArnGo arn.data []).map List.asString

/-- Short-name derivation at main.go line 64: `parts[len(parts)-1]`.
`none` models the index-out-of-range panic when `splitArn` returns an
empty slice. -/
def shortName (arn : String) : Option String :=
  (splitArn arn).getLast?

/-- Plain split of a character list on `'/'`, keeping every (possibly
empty) segment. This is the split described by the words of the spec ("each
identifier is split on `/`"); it is compared with `splitArn` from the code. -/
def specSplit : List Char → List (List Char)
  | [] => [[]]
  | c :: rest =>
      if c = '/' then [] :: specSplit rest
      else
        match specSplit rest with
        | [] => [[c]]
        | seg :: segs => (c :: seg) :: segs

/-- Short name as the sentence of the spec states it: the last non-empty
segment of the plain split. -/
def specShortName (arn : String) : Option String :=
  (((specSplit arn.data).filter (fun seg => seg ≠ [])).getLast?).map List.asString

/-- Short-name derivation loop at main.go lines 60-66: one short name per
enumerated service ARN, in order. `none` models the panic on an ARN whose
`splitArn` is empty. (The collision table `serviceNameToArn` built in the
same loop is never read downstream and is omitted.) -/
def deriveNames : List String → Option (List String)
  | [] => some []
  | arn :: rest =>
      match shortName arn with
      | none => none
      | some n =>
          match deriveNames rest with
          | none => none
          | some ns => some (n :: ns)

/-- Drop a single trailing empty segment from a split result (the segment
`splitArn` refuses to emit when the identifier ends in `/`). -/
def dropTrailingEmpty (segs : List (List Char)) : List (List Char) :=
  match segs.getLast? with
  | some [] => segs.dropLast
  | _ => segs

/-! ### Batching (main.go lines 110-119)

`for i := 0; i < len(taskArns); i += 100 { ... taskArns[i:min(i+100,len)] }`. -/

/-- Batching loop with explicit fuel (structural recursion so that the
kernel can evaluate it; `chunks100` supplies `l.length` as fuel, which is
enough since every step drops at least one element). -/
def chunksGo {α : Type} : Nat → List α → List (List α)
  | 0, _ => []
  | _, [] => []
  | fuel + 1, a :: rest => ((a :: rest).take 100) :: chunksGo fuel ((a :: rest).drop 100)

/-- Successive slices `l[i : i+100]` of the batching loop. -/
def chunks100 {α : Type} (l : List α) : List (List α) :=
  chunksGo l.length l

/-! ### Go map / set primitives

Go maps have unique keys; writing replaces, reading a missing key yields
the zero value. `map[string]struct{}` is a set; membership insert is
idempotent. All maps in the program are built from empty by the
operations below, which keep the first matching key when replacing so
that lookup and insert agree even on ill-formed duplicate-key lists. -/

/-- Go map read `m[k]` with zero value `d` for a missing key. -/
def lookupD {α : Type} (m : List (String × α)) (k : String) (d : α) : α :=
  match m with
  | [] => d
  | (k1, v) :: rest => if k1 = k then v else lookupD rest k d

/-- Go map write `m[k] = v` (replace or append). -/
def mapInsert {α : Type} (k : String) (v : α) : List (String × α) → List (String × α)
  | [] => [(k, v)]
  | (k1, v1) :: rest => if k1 = k then (k, v) :: rest else (k1, v1) :: mapInsert k v rest

/-- Go set insert `s[x] = struct{}{}`: append `x` unless already present. -/
def setInsert (x : String) (s : List String) : List String :=
  if x ∈ s then s else s ++ [x]

/-- Go `map[string]map[string]struct{}` update at main.go lines 126-129:
create the inner set if absent, then insert `s` into it. -/
def tdsInsert (d s : String) : List (String × List String) → List (String × List String)
  | [] => [(d, [s])]
  | (d1, svcs) :: rest =>
      if d1 = d then (d, setInsert s svcs) :: rest else (d1, svcs) :: tdsInsert d s rest

/-- Insert every element of `svcs` into the set `s` (the
`for svc := range services` loop at main.go lines 163-165). -/
def addAll (svcs : List String) (s : List String) : List String :=
  svcs.foldl (fun acc v => setInsert v acc) s

/-- `imageToServices` update at main.go lines 160-165: create the entry
for `image` if absent, then insert every owning service. -/
def imgInsert (image : String) (svcs : List String) :
    List (String × List String) → List (String × List String)
  | [] => [(image, addAll svcs [])]
  | (i, s) :: rest =>
      if i = image then (i, addAll svcs s) :: rest else (i, s) :: imgInsert image svcs rest

/-! ### Pipeline stages -/

/-- One iteration of the task-listing pool (main.go lines 78-98): on
success append the returned task ARNs to the accumulator and record each
owning service of each one in the reverse index; on error contribute nothing. -/
def listStep (client : Client) (acc : List String × List (String × String)) (svcName : String) :
    List String × List (String × String) :=
  match client.listTasks svcName with
  | some resp => (acc.1 ++ resp, resp.foldl (fun m t => mapInsert t svcName m) acc.2)
  | none => acc

/-- Task-resolution stage: the pool over all service names, returning the
global `taskArns` list and the `taskToService` reverse index. -/
def stage2 (client : Client) (serviceNames : List String) :
    List String × List (String × String) :=
  serviceNames.foldl (listStep client) ([], [])

/-- Per-task body of the describe loop (main.go lines 123-130): record the
task-definition ARN in the definition set and add the owning
service of the task (reverse-index lookup, zero value `""`) to that
ownership set. -/
def descStep (taskToService : List (String × String))
    (acc : List String × List (String × List String)) (task : TaskDesc) :
    List String × List (String × List String) :=
  (setInsert task.taskDefinitionArn acc.1,
   tdsInsert task.taskDefinitionArn (lookupD taskToService task.taskArn "") acc.2)

/-- One batch of the describe loop (main.go lines 116-131): on error skip
the whole batch, else process every returned task. -/
def batchStep (client : Client) (taskToService : List (String × String))
    (acc : List String × List (String × List String)) (batch : List String) :
    List String × List (String × List String) :=
  match client.describeTasks batch with
  | none => acc
  | some tasks => tasks.foldl (descStep taskToService) acc

/-- Task-definition-resolution stage: sequential loop over the batches,
returning `taskDefArns` (as the insertion-ordered key list) and
`taskDefToService`. -/
def stage3 (client : Client) (taskArns : List String) (taskToService : List (String × String)) :
    List String × List (String × List String) :=
  (chunks100 taskArns).foldl (batchStep client taskToService) ([], [])

/-- One iteration of the task-definition pool (main.go lines 146-171): on
success merge the full owning-service set of the definition into the entry of
every declared container image; on error contribute nothing. -/
def defStep (client : Client) (taskDefToService : List (String × List String))
    (img : List (String × List String)) (tdArn : String) : List (String × List String) :=
  match client.describeTaskDefinition tdArn with
  | none => img
  | some images =>
      let services := lookupD taskDefToService tdArn []
      images.foldl (fun acc image => imgInsert image services acc) img

/-- Image-resolution stage: the pool over the distinct task definitions,
building the final `imageToServices` mapping. -/
def stage4 (client : Client) (taskDefList : List String)
    (taskDefToService : List (String × List String)) : List (String × List String) :=
  taskDefList.foldl (defStep client taskDefToService) []

/-- Terminal states of one run: fatal configuration or enumeration error,
panic during short-name derivation, the two successful empty-result early
exits, or a final report (the `imageToServices` mapping handed to the
printing loop). -/
inductive RunResult where
  | fatal : RunResult
  | panicked : RunResult
  | noServices : RunResult
  | noTasks : RunResult
  | report : List (String × List String) → RunResult
  deriving DecidableEq

/-- The whole pipeline of `main` after flag parsing: enumeration (fatal on
error, "No services found." early exit), short-name derivation (panic on
an un-splittable ARN), task listing, "No tasks found." early exit, batch
description, image resolution, report. -/
def run (client : Client) : RunResult :=
  match client.listServices with
  | none => RunResult.fatal
  | some serviceArns =>
      if serviceArns = [] then RunResult.noServices
      else
        match deriveNames serviceArns with
        | none => RunResult.panicked
        | some serviceNames =>
            let s2 := stage2 client serviceNames
            if s2.1 = [] then RunResult.noTasks
            else
              let s3 := stage3 client s2.1 s2.2
              RunResult.report (stage4 client s3.1 s3.2)

/-- All-success environment for the completeness claim: a ground-truth
world assigning each service name its running tasks, each task its task
definition, and each definition its container images; every API call
succeeds and answers from the world. -/
def worldClient (svcArns : List String) (tasksOf : String → List String)
    (defOf : String → String) (imagesOf : String → List String) : Client where
  listServices := some svcArns
  listTasks := fun n => some (tasksOf n)
  describeTasks := fun batch => some (batch.map (fun t => ⟨t, defOf t⟩))
  describeTaskDefinition := fun td => some (imagesOf td)

/-- Prepend `cur` to the first segment of a split (proof helper relating
the accumulator of `splitArnGo` to the plain split). -/
def consInto (cur : List Char) : List (List Char) → List (List Char)
  | [] => [cur]
  | seg :: segs => (cur ++ seg) :: segs

/-! ### Concrete environments used to witness the theorems -/

/-- A 150-element task-identifier list (two batches: 100 and 50). -/
def c3List : List String := List.replicate 150 "t"

/-- Cluster with no services. -/
def c6Empty : Client :=
  ⟨some [], fun _ => some [], fun _ => some [], fun _ => some []⟩

/-- Cluster with one service and no running tasks. -/
def c6NoTasks : Client :=
  ⟨some ["svc/one"], fun _ => some [], fun _ => some [], fun _ => some []⟩

/-- Client whose task listing fails for service `bad` and whose bulk
description fails for the batch `[x]`. -/
def c7Client : Client :=
  ⟨some [], fun n => if n = "bad" then none else some [n ++ "-t"],
   fun b => if b = ["x"] then none else some [], fun _ => some []⟩

/-- Honest single-service client: one service `svc/a`, one task `t1`
running definition `d1`, which declares the image `img1`. -/
def c8Client : Client where
  listServices := some ["svc/a"]
  listTasks := fun n => if n = "a" then some ["t1"] else some []
  describeTasks := fun batch => some (batch.map (fun t => ⟨t, "d1"⟩))
  describeTaskDefinition := fun _ => some ["img1"]

/-- Ground-truth world for the completeness witness: one service `svc-a`
with one task `task-1` running `def-1`, which declares `repo/app:1`. -/
def c1Arns : List String := ["arn:aws:ecs:us-east-1:1:service/demo/svc-a"]

/-- Task list of each service in the completeness witness world. -/
def c1TasksOf (n : String) : List String := if n = "svc-a" then ["task-1"] else []

/-- Task definition of each task in the completeness witness world. -/
def c1DefOf (_ : String) : String := "def-1"

/-- Container images of each definition in the completeness witness world. -/
def c1ImagesOf (d : String) : List String := if d = "def-1" then ["repo/app:1"] else []

/-- Client for the union-correctness witness: both tasks of the batch run
definition `def-1`, which declares the single image `img-1`. -/
def c2Client : Client where
  listServices := some []
  listTasks := fun _ => some []
  describeTasks := fun batch => some (batch.map (fun t => ⟨t, "def-1"⟩))
  describeTaskDefinition := fun d => if d = "def-1" then some ["img-1"] else none

/-! ## Theorems

### Short-name derivation -/

theorem specSplit_ne_nil (s : List Char) : specSplit s ≠ [] := by
  induction s with
  | nil => simp [specSplit]
  | cons c rest ih =>
      simp only [specSplit]
      split
      · simp
      · cases h : specSplit rest <;> simp

theorem dropTrailingEmpty_cons (cur : List Char) (ss : List (List Char)) (h : ss ≠ []) :
    dropTrailingEmpty (cur :: ss) = cur :: dropTrailingEmpty ss := by
  cases ss with
  | nil => exact absurd rfl h
  | cons b t =>
      unfold dropTrailingEmpty
      rw [List.getLast?_cons_cons]
      cases hl : (b :: t).getLast? with
      | none => simp
      | some val => cases val <;> simp [List.dropLast]

theorem consInto_nil_left (ss : List (List Char)) (h : ss ≠ []) : consInto [] ss = ss := by
  cases ss with
  | nil => exact absurd rfl h
  | cons seg segs => simp [consInto]

/-- The `splitArn` loop computes the plain split with one trailing empty
segment dropped, the prefix `cur` being glued onto the first segment. -/
theorem splitArnGo_eq_specSplit (s : List Char) :
    ∀ cur, splitArnGo s cur = dropTrailingEmpty (consInto cur (specSplit s)) := by
  induction s with
  | nil =>
      intro cur
      cases cur <;> simp [splitArnGo, specSplit, consInto, dropTrailingEmpty]
  | cons c rest ih =>
      intro cur
      by_cases hc : c = '/'
      · have hne := specSplit_ne_nil rest
        subst hc
        rw [show splitArnGo ('/' :: rest) cur = cur :: splitArnGo rest [] from rfl,
          show specSplit ('/' :: rest) = [] :: specSplit rest from rfl]
        have hci : consInto cur ([] :: specSplit rest) = cur :: specSplit rest := by
          simp [consInto]
        rw [hci, dropTrailingEmpty_cons _ _ hne, ih [], consInto_nil_left _ hne]
      · rcases h : specSplit rest with _ | ⟨seg, segs⟩
        · exact absurd h (specSplit_ne_nil rest)
        · have h1 : splitArnGo (c :: rest) cur = splitArnGo rest (cur ++ [c]) := by
            simp [splitArnGo, hc]
          have h2 : specSplit (c :: rest) = (c :: seg) :: segs := by
            simp only [specSplit, if_neg hc, h]
          rw [h1, h2, ih (cur ++ [c]), h]
          simp [consInto, List.append_assoc]

/-- C5 counterexample input: for the identifier `a//` the code derives the
empty short name, while the last non-empty segment of the split is `a`. -/
theorem claim5_counterexample :
    shortName "a//" = some "" ∧ specShortName "a//" = some "a" ∧
      shortName "a//" ≠ specShortName "a//" := by
  refine ⟨by decide, by decide, by decide⟩

/-- C5 (amended): the derived short name is the last segment of the split
on `/` after dropping a single trailing empty segment; interior empty
segments are kept, so the result may itself be empty, and no segment
remains for the empty identifier. -/
theorem claim5_amended (arn : String) :
    shortName arn = ((dropTrailingEmpty (specSplit arn.data)).map List.asString).getLast? := by
  unfold shortName splitArn
  rw [splitArnGo_eq_specSplit arn.data [],
    consInto_nil_left _ (specSplit_ne_nil arn.data)]

/-- C9: the short-name derivation is not total: the empty identifier
splits into no segments, so the access `parts[len(parts)-1]` is out of
range (a panic, modelled by `none`), and the identifier `/` yields the
empty short name rather than a segment of the identifier. -/
theorem claim9_partiality :
    splitArn "" = [] ∧ shortName "" = none ∧
      splitArn "/" = [""] ∧ shortName "/" = some "" := by
  refine ⟨by decide, by decide, by decide, by decide⟩

/-! ### Batching -/

theorem chunksGo_nil {α : Type} (fuel : Nat) : chunksGo fuel ([] : List α) = [] := by
  cases fuel <;> rfl

theorem chunksGo_eq_of_le {α : Type} :
    ∀ (f1 f2 : Nat) (l : List α), l.length ≤ f1 → l.length ≤ f2 →
      chunksGo f1 l = chunksGo f2 l := by
  intro f1
  induction f1 with
  | zero =>
      intro f2 l h1 h2
      have : l = [] := List.eq_nil_of_length_eq_zero (Nat.le_zero.mp h1)
      subst this
      rw [chunksGo_nil, chunksGo_nil]
  | succ f ih =>
      intro f2 l h1 h2
      cases l with
      | nil => rw [chunksGo_nil, chunksGo_nil]
      | cons a rest =>
          cases f2 with
          | zero => simp at h2
          | succ g =>
              simp only [chunksGo]
              rw [ih g ((a :: rest).drop 100)
                (by simp only [List.length_drop, List.length_cons] at h1 ⊢; omega)
                (by simp only [List.length_drop, List.length_cons] at h2 ⊢; omega)]

theorem chunks100_nil {α : Type} : chunks100 ([] : List α) = [] := rfl

theorem chunks100_cons {α : Type} (a : α) (rest : List α) :
    chunks100 (a :: rest) = (a :: rest).take 100 :: chunks100 ((a :: rest).drop 100) := by
  show chunksGo (a :: rest).length (a :: rest) = _
  simp only [List.length_cons, chunksGo]
  rw [chunksGo_eq_of_le rest.length ((a :: rest).drop 100).length ((a :: rest).drop 100)
    (by simp only [List.length_drop, List.length_cons]; omega) le_rfl]
  rfl

theorem chunks100_eq_nil_iff {α : Type} (l : List α) : chunks100 l = [] ↔ l = [] := by
  cases l with
  | nil => simp [chunks100_nil]
  | cons a rest => rw [chunks100_cons]; simp

theorem chunks100_flatten {α : Type} (l : List α) : (chunks100 l).flatten = l := by
  suffices H : ∀ n (l : List α), l.length ≤ n → (chunks100 l).flatten = l from
    H l.length l le_rfl
  intro n
  induction n with
  | zero =>
      intro l h
      have : l = [] := List.eq_nil_of_length_eq_zero (Nat.le_zero.mp h)
      subst this
      rfl
  | succ n ih =>
      intro l h
      cases l with
      | nil => rfl
      | cons a rest =>
          rw [chunks100_cons, List.flatten_cons,
            ih ((a :: rest).drop 100)
              (by simp only [List.length_drop, List.length_cons] at h ⊢; omega),
            List.take_append_drop]

theorem chunks100_length {α : Type} (l : List α) :
    (chunks100 l).length = (l.length + 99) / 100 := by
  suffices H : ∀ n (l : List α), l.length ≤ n →
      (chunks100 l).length = (l.length + 99) / 100 from H l.length l le_rfl
  intro n
  induction n with
  | zero =>
      intro l h
      have : l = [] := List.eq_nil_of_length_eq_zero (Nat.le_zero.mp h)
      subst this
      simp [chunks100_nil]
  | succ n ih =>
      intro l h
      cases l with
      | nil => simp [chunks100_nil]
      | cons a rest =>
          rw [chunks100_cons]
          simp only [List.length_cons,
            ih ((a :: rest).drop 100)
              (by simp only [List.length_drop, List.length_cons] at h ⊢; omega),
            List.length_drop]
          omega

theorem chunks100_mem_le {α : Type} (l : List α) (c : List α) (hmem : c ∈ chunks100 l) :
    c.length ≤ 100 := by
  suffices H : ∀ n (l : List α), l.length ≤ n → ∀ c, c ∈ chunks100 l → c.length ≤ 100 from
    H l.length l le_rfl c hmem
  intro n
  induction n with
  | zero =>
      intro l h c hc
      have : l = [] := List.eq_nil_of_length_eq_zero (Nat.le_zero.mp h)
      subst this
      simp [chunks100_nil] at hc
  | succ n ih =>
      intro l h c hc
      cases l with
      | nil => simp [chunks100_nil] at hc
      | cons a rest =>
          rw [chunks100_cons] at hc
          rcases List.mem_cons.mp hc with hc | hc
          · subst hc; simp [List.length_take]
          · exact ih ((a :: rest).drop 100)
              (by simp only [List.length_drop, List.length_cons] at h ⊢; omega) c hc

theorem chunks100_full {α : Type} (l : List α) :
    ∀ i, i + 1 < (chunks100 l).length → ((chunks100 l).getD i []).length = 100 := by
  suffices H : ∀ n (l : List α), l.length ≤ n → ∀ i, i + 1 < (chunks100 l).length →
      ((chunks100 l).getD i []).length = 100 from H l.length l le_rfl
  intro n
  induction n with
  | zero =>
      intro l h i hi
      have : l = [] := List.eq_nil_of_length_eq_zero (Nat.le_zero.mp h)
      subst this
      simp [chunks100_nil] at hi
  | succ n ih =>
      intro l h i hi
      cases l with
      | nil => simp [chunks100_nil] at hi
      | cons a rest =>
          rw [chunks100_cons] at hi ⊢
          cases i with
          | zero =>
              have hne : chunks100 ((a :: rest).drop 100) ≠ [] := by
                intro hnil
                rw [hnil] at hi
                simp at hi
              have hd : ((a :: rest).drop 100).length ≠ 0 := by
                intro h0
                exact hne ((chunks100_eq_nil_iff _).mpr (List.eq_nil_of_length_eq_zero h0))
              rw [List.length_drop] at hd
              simp only [List.length_cons] at hd
              simp only [List.getD_cons_zero, List.length_take, List.length_cons]
              omega
          | succ j =>
              simp only [List.length_cons, Nat.succ_lt_succ_iff] at hi
              simp only [List.getD_cons_succ]
              exact ih ((a :: rest).drop 100)
                (by simp only [List.length_drop, List.length_cons] at h ⊢; omega) j hi

theorem mem_of_mem_chunks100 {α : Type} (l c : List α) (x : α)
    (hc : c ∈ chunks100 l) (hx : x ∈ c) : x ∈ l := by
  rw [← chunks100_flatten l]
  exact List.mem_flatten.mpr ⟨c, hc, hx⟩

theorem exists_chunk_of_mem {α : Type} (l : List α) (x : α) (hx : x ∈ l) :
    ∃ c ∈ chunks100 l, x ∈ c := by
  rw [← chunks100_flatten l] at hx
  exact List.mem_flatten.mp hx

/-- C3: the describe loop partitions the task list into `⌈L/100⌉` batches
(`(L + 99) / 100` in natural-number division); every batch has at most
100 identifiers, every batch but the last has exactly 100, and the
concatenation of the batches is the original list (each element exactly
once). -/
theorem claim3_batching (l : List String) :
    (chunks100 l).length = (l.length + 99) / 100 ∧
      (chunks100 l).flatten = l ∧
      (∀ c ∈ chunks100 l, c.length ≤ 100) ∧
      ∀ i, i + 1 < (chunks100 l).length → ((chunks100 l).getD i []).length = 100 :=
  ⟨chunks100_length l, chunks100_flatten l, fun c hc => chunks100_mem_le l c hc,
    chunks100_full l⟩

set_option maxRecDepth 10000 in
/-- C3 witness: a 150-element list yields two batches, the first of size
100, whose concatenation is the list. -/
theorem claim3_witness :
    (chunks100 c3List).length = 2 ∧
      (chunks100 c3List).flatten = c3List ∧
      (c3List.take 100).length ≤ 100 ∧
      ((chunks100 c3List).getD 0 []).length = 100 :=
  ⟨((claim3_batching c3List).1).trans (by decide), (claim3_batching c3List).2.1,
    (claim3_batching c3List).2.2.1 (c3List.take 100) (by decide),
    (claim3_batching c3List).2.2.2 0 (by decide)⟩

/-! ### Map and set primitives -/

theorem mem_setInsert (y x : String) (s : List String) :
    y ∈ setInsert x s ↔ y = x ∨ y ∈ s := by
  unfold setInsert
  split
  · constructor
    · exact fun h => Or.inr h
    · rintro (rfl | h)
      · assumption
      · assumption
  · simp [List.mem_append, or_comm]

theorem setInsert_nodup (x : String) (s : List String) (h : s.Nodup) :
    (setInsert x s).Nodup := by
  unfold setInsert
  split
  · exact h
  · rw [List.nodup_append]
    refine ⟨h, List.nodup_singleton x, ?_⟩
    intro a ha hax
    simp only [List.mem_singleton] at hax
    subst hax
    contradiction

theorem setInsert_ne_nil_of_ne (x : String) (s : List String) (h : s ≠ []) :
    setInsert x s ≠ [] := by
  unfold setInsert
  split
  · exact h
  · simp

theorem mem_addAll (y : String) (svcs s : List String) :
    y ∈ addAll svcs s ↔ y ∈ svcs ∨ y ∈ s := by
  unfold addAll
  induction svcs generalizing s with
  | nil => simp
  | cons v vs ih =>
      simp only [List.foldl_cons, List.mem_cons]
      rw [ih (setInsert v s), mem_setInsert]
      tauto

theorem addAll_nodup (svcs s : List String) (h : s.Nodup) : (addAll svcs s).Nodup := by
  unfold addAll
  induction svcs generalizing s with
  | nil => exact h
  | cons v vs ih => exact ih (setInsert v s) (setInsert_nodup v s h)

theorem addAll_ne_nil_of_ne (svcs s : List String) (h : s ≠ []) : addAll svcs s ≠ [] := by
  intro h0
  rcases List.exists_mem_of_ne_nil s h with ⟨y, hy⟩
  have : y ∈ addAll svcs s := (mem_addAll y svcs s).mpr (Or.inr hy)
  rw [h0] at this
  simp at this

theorem addAll_ne_nil_of_src (svcs s : List String) (h : svcs ≠ []) : addAll svcs s ≠ [] := by
  intro h0
  rcases List.exists_mem_of_ne_nil svcs h with ⟨y, hy⟩
  have : y ∈ addAll svcs s := (mem_addAll y svcs s).mpr (Or.inl hy)
  rw [h0] at this
  simp at this

theorem lookupD_mapInsert_self {α : Type} (k : String) (v : α) (m : List (String × α)) (d : α) :
    lookupD (mapInsert k v m) k d = v := by
  induction m with
  | nil => simp [mapInsert, lookupD]
  | cons p rest ih =>
      obtain ⟨k1, v1⟩ := p
      by_cases h : k1 = k
      · simp [mapInsert, h, lookupD]
      · simp [mapInsert, h, lookupD, ih]

theorem lookupD_mapInsert_ne {α : Type} (k k1 : String) (v : α) (m : List (String × α)) (d : α)
    (h : k1 ≠ k) : lookupD (mapInsert k v m) k1 d = lookupD m k1 d := by
  have hne : ¬ (k = k1) := fun he => h he.symm
  induction m with
  | nil => simp [mapInsert, lookupD, hne]
  | cons p rest ih =>
      obtain ⟨k2, v2⟩ := p
      by_cases h2 : k2 = k
      · subst h2
        rw [mapInsert, if_pos rfl]
        simp [lookupD, hne]
      · rw [mapInsert, if_neg h2]
        by_cases h3 : k2 = k1
        · subst h3
          simp [lookupD]
        · simp [lookupD, h3, ih]

theorem mem_mapInsert {α : Type} (p : String × α) (k : String) (v : α) (m : List (String × α))
    (h : p ∈ mapInsert k v m) : p = (k, v) ∨ p ∈ m := by
  induction m with
  | nil => simp [mapInsert] at h; exact Or.inl h
  | cons q rest ih =>
      obtain ⟨k1, v1⟩ := q
      by_cases h1 : k1 = k
      · rw [mapInsert, if_pos h1] at h
        rcases List.mem_cons.mp h with h | h
        · exact Or.inl h
        · exact Or.inr (List.mem_cons_of_mem _ h)
      · rw [mapInsert, if_neg h1] at h
        rcases List.mem_cons.mp h with h | h
        · exact Or.inr (h ▸ List.mem_cons_self _ _)
        · rcases ih h with h | h
          · exact Or.inl h
          · exact Or.inr (List.mem_cons_of_mem _ h)

theorem fst_mem_mapInsert_self {α : Type} (k : String) (v : α) (m : List (String × α)) :
    k ∈ (mapInsert k v m).map Prod.fst := by
  induction m with
  | nil => simp [mapInsert]
  | cons q rest ih =>
      obtain ⟨k1, v1⟩ := q
      by_cases h1 : k1 = k <;> simp [mapInsert, h1, ih]

theorem fst_mem_mapInsert_of_mem {α : Type} (k k1 : String) (v : α) (m : List (String × α))
    (h : k1 ∈ m.map Prod.fst) : k1 ∈ (mapInsert k v m).map Prod.fst := by
  induction m with
  | nil => simp at h
  | cons q rest ih =>
      obtain ⟨k2, v2⟩ := q
      simp only [List.map_cons, List.mem_cons] at h
      by_cases h2 : k2 = k
      · subst h2
        rcases h with h | h <;> simp [mapInsert, h]
      · rcases h with h | h
        · simp [mapInsert, h2, h]
        · simp [mapInsert, h2, ih h]

theorem lookupD_mem_of_key {α : Type} (m : List (String × α)) (k : String) (d : α)
    (h : k ∈ m.map Prod.fst) : (k, lookupD m k d) ∈ m := by
  induction m with
  | nil => simp at h
  | cons q rest ih =>
      obtain ⟨k1, v1⟩ := q
      by_cases h1 : k1 = k
      · subst h1
        simp [lookupD]
      · simp only [List.map_cons, List.mem_cons] at h
        rcases h with h | h
        · exact absurd h.symm h1
        · simp only [lookupD, if_neg h1]
          exact List.mem_cons_of_mem _ (ih h)

theorem lookupD_eq_or_mem {α : Type} (m : List (String × α)) (k : String) (d : α) :
    lookupD m k d = d ∨ (k, lookupD m k d) ∈ m := by
  induction m with
  | nil => exact Or.inl rfl
  | cons q rest ih =>
      obtain ⟨k1, v1⟩ := q
      by_cases h1 : k1 = k
      · subst h1
        simp [lookupD]
      · simp only [lookupD, if_neg h1]
        rcases ih with h | h
        · exact Or.inl h
        · exact Or.inr (List.mem_cons_of_mem _ h)

theorem lookupD_tdsInsert_self (d s : String) (m : List (String × List String)) :
    lookupD (tdsInsert d s m) d [] = setInsert s (lookupD m d []) := by
  induction m with
  | nil => simp [tdsInsert, lookupD, setInsert]
  | cons q rest ih =>
      obtain ⟨d1, svcs⟩ := q
      by_cases h1 : d1 = d
      · subst h1
        simp [tdsInsert, lookupD]
      · simp [tdsInsert, lookupD, h1, ih]

theorem lookupD_tdsInsert_ne (d d1 s : String) (m : List (String × List String))
    (h : d1 ≠ d) : lookupD (tdsInsert d s m) d1 [] = lookupD m d1 [] := by
  have hne : ¬ (d = d1) := fun he => h he.symm
  induction m with
  | nil => simp [tdsInsert, lookupD, hne]
  | cons q rest ih =>
      obtain ⟨d2, svcs⟩ := q
      by_cases h2 : d2 = d
      · subst h2
        rw [tdsInsert, if_pos rfl]
        simp [lookupD, hne]
      · rw [tdsInsert, if_neg h2]
        by_cases h3 : d2 = d1
        · subst h3
          simp [lookupD]
        · simp [lookupD, h3, ih]

theorem tdsInsert_entries (P : String → List String → Prop) (d s : String)
    (m : List (String × List String))
    (hm : ∀ p ∈ m, P p.1 p.2)
    (hgrow : ∀ svcs, P d svcs → P d (setInsert s svcs))
    (hnew : P d [s]) :
    ∀ p ∈ tdsInsert d s m, P p.1 p.2 := by
  induction m with
  | nil =>
      intro p hp
      simp only [tdsInsert, List.mem_singleton] at hp
      subst hp
      exact hnew
  | cons q rest ih =>
      obtain ⟨d1, svcs⟩ := q
      intro p hp
      by_cases h1 : d1 = d
      · subst h1
        rw [tdsInsert, if_pos rfl] at hp
        rcases List.mem_cons.mp hp with hp | hp
        · subst hp
          exact hgrow svcs (hm (d1, svcs) (List.mem_cons_self _ _))
        · exact hm p (List.mem_cons_of_mem _ hp)
      · rw [tdsInsert, if_neg h1] at hp
        rcases List.mem_cons.mp hp with hp | hp
        · subst hp
          exact hm (d1, svcs) (List.mem_cons_self _ _)
        · exact ih (fun q hq => hm q (List.mem_cons_of_mem _ hq)) p hp

theorem lookupD_imgInsert_self (i : String) (svcs : List String)
    (m : List (String × List String)) :
    lookupD (imgInsert i svcs m) i [] = addAll svcs (lookupD m i []) := by
  induction m with
  | nil => simp [imgInsert, lookupD]
  | cons q rest ih =>
      obtain ⟨i1, s1⟩ := q
      by_cases h1 : i1 = i
      · subst h1
        simp [imgInsert, lookupD]
      · simp [imgInsert, lookupD, h1, ih]

theorem lookupD_imgInsert_ne (i i1 : String) (svcs : List String)
    (m : List (String × List String)) (h : i1 ≠ i) :
    lookupD (imgInsert i svcs m) i1 [] = lookupD m i1 [] := by
  have hne : ¬ (i = i1) := fun he => h he.symm
  induction m with
  | nil => simp [imgInsert, lookupD, hne]
  | cons q rest ih =>
      obtain ⟨i2, s2⟩ := q
      by_cases h2 : i2 = i
      · subst h2
        rw [imgInsert, if_pos rfl]
        simp [lookupD, hne]
      · rw [imgInsert, if_neg h2]
        by_cases h3 : i2 = i1
        · subst h3
          simp [lookupD]
        · simp [lookupD, h3, ih]

theorem imgInsert_entries (P : String → List String → Prop) (image : String)
    (svcs : List String) (m : List (String × List String))
    (hm : ∀ p ∈ m, P p.1 p.2)
    (hgrow : ∀ s0, P image s0 → P image (addAll svcs s0))
    (hnew : P image (addAll svcs [])) :
    ∀ p ∈ imgInsert image svcs m, P p.1 p.2 := by
  induction m with
  | nil =>
      intro p hp
      simp only [imgInsert, List.mem_singleton] at hp
      subst hp
      exact hnew
  | cons q rest ih =>
      obtain ⟨i1, s1⟩ := q
      intro p hp
      by_cases h1 : i1 = image
      · subst h1
        rw [imgInsert, if_pos rfl] at hp
        rcases List.mem_cons.mp hp with hp | hp
        · subst hp
          exact hgrow s1 (hm (i1, s1) (List.mem_cons_self _ _))
        · exact hm p (List.mem_cons_of_mem _ hp)
      · rw [imgInsert, if_neg h1] at hp
        rcases List.mem_cons.mp hp with hp | hp
        · subst hp
          exact hm (i1, s1) (List.mem_cons_self _ _)
        · exact ih (fun q hq => hm q (List.mem_cons_of_mem _ hq)) p hp

/-! ### Task-resolution stage (stage2) -/

theorem insFold_entries (n : String) (ts : List String) (m : List (String × String))
    (p : String × String)
    (h : p ∈ ts.foldl (fun m t => mapInsert t n m) m) : p ∈ m ∨ (p.2 = n ∧ p.1 ∈ ts) := by
  induction ts generalizing m with
  | nil => exact Or.inl h
  | cons t ts ih =>
      simp only [List.foldl_cons] at h
      rcases ih (mapInsert t n m) h with h1 | h1
      · rcases mem_mapInsert p t n m h1 with h2 | h2
        · subst h2
          exact Or.inr ⟨rfl, List.mem_cons_self _ _⟩
        · exact Or.inl h2
      · exact Or.inr ⟨h1.1, List.mem_cons_of_mem _ h1.2⟩

theorem insFold_keys (n : String) (ts : List String) (m : List (String × String))
    (k : String) (h : k ∈ m.map Prod.fst ∨ k ∈ ts) :
    k ∈ (ts.foldl (fun m t => mapInsert t n m) m).map Prod.fst := by
  induction ts generalizing m with
  | nil =>
      rcases h with h | h
      · exact h
      · simp at h
  | cons t ts ih =>
      simp only [List.foldl_cons]
      rcases h with h | h
      · exact ih (mapInsert t n m) (Or.inl (fst_mem_mapInsert_of_mem t k n m h))
      · rcases List.mem_cons.mp h with h | h
        · subst h
          exact ih (mapInsert k n m) (Or.inl (fst_mem_mapInsert_self k n m))
        · exact ih (mapInsert t n m) (Or.inr h)

theorem stage2_fold_fst_mono (client : Client) (names : List String)
    (acc : List String × List (String × String)) (t : String) (h : t ∈ acc.1) :
    t ∈ (names.foldl (listStep client) acc).1 := by
  induction names generalizing acc with
  | nil => exact h
  | cons n ns ih =>
      simp only [List.foldl_cons]
      refine ih (listStep client acc n) ?_
      unfold listStep
      cases client.listTasks n with
      | none => exact h
      | some resp => exact List.mem_append_left _ h

theorem stage2_fold_mem_fst (client : Client) (names : List String)
    (n : String) (resp : List String) (t : String)
    (hresp : client.listTasks n = some resp) (ht : t ∈ resp) :
    ∀ acc, n ∈ names → t ∈ (names.foldl (listStep client) acc).1 := by
  induction names with
  | nil =>
      intro acc hn
      simp at hn
  | cons n0 ns ih =>
      intro acc hn
      simp only [List.foldl_cons]
      rcases List.mem_cons.mp hn with hn | hn
      · subst hn
        refine stage2_fold_fst_mono client ns (listStep client acc n) t ?_
        unfold listStep
        rw [hresp]
        exact List.mem_append_right _ ht
      · exact ih (listStep client acc n0) hn

theorem stage2_fold_entries (client : Client) (names : List String)
    (acc : List String × List (String × String)) (p : String × String)
    (h : p ∈ (names.foldl (listStep client) acc).2) :
    p ∈ acc.2 ∨ (p.2 ∈ names ∧ ∃ resp, client.listTasks p.2 = some resp ∧ p.1 ∈ resp) := by
  induction names generalizing acc with
  | nil => exact Or.inl h
  | cons n ns ih =>
      simp only [List.foldl_cons] at h
      rcases ih (listStep client acc n) h with h1 | h1
      · unfold listStep at h1
        cases hr : client.listTasks n with
        | none =>
            rw [hr] at h1
            exact Or.inl h1
        | some resp =>
            rw [hr] at h1
            simp only at h1
            rcases insFold_entries n resp acc.2 p h1 with h2 | h2
            · exact Or.inl h2
            · exact Or.inr ⟨h2.1 ▸ List.mem_cons_self _ _, resp, h2.1 ▸ hr, h2.2⟩
      · exact Or.inr ⟨List.mem_cons_of_mem _ h1.1, h1.2⟩

theorem stage2_fold_keys (client : Client) (names : List String)
    (acc : List String × List (String × String))
    (hinv : ∀ t ∈ acc.1, t ∈ acc.2.map Prod.fst) :
    ∀ t ∈ (names.foldl (listStep client) acc).1,
      t ∈ (names.foldl (listStep client) acc).2.map Prod.fst := by
  induction names generalizing acc with
  | nil => exact hinv
  | cons n ns ih =>
      simp only [List.foldl_cons]
      refine ih (listStep client acc n) ?_
      unfold listStep
      cases hr : client.listTasks n with
      | none => exact hinv
      | some resp =>
          intro t ht
          simp only at ht ⊢
          rcases List.mem_append.mp ht with ht | ht
          · exact insFold_keys n resp acc.2 t (Or.inl (hinv t ht))
          · exact insFold_keys n resp acc.2 t (Or.inr ht)

/-- Every task ARN accumulated by stage 2 is a key of the reverse index. -/
theorem stage2_keys (client : Client) (names : List String) :
    ∀ t ∈ (stage2 client names).1, t ∈ (stage2 client names).2.map Prod.fst := by
  refine stage2_fold_keys client names ([], []) ?_
  intro t ht
  simp at ht

/-- Every entry of the stage-2 reverse index maps a task ARN returned by a
successful listing for its service name, and that name is one of the
processed service names. -/
theorem stage2_entries (client : Client) (names : List String) (p : String × String)
    (h : p ∈ (stage2 client names).2) :
    p.2 ∈ names ∧ ∃ resp, client.listTasks p.2 = some resp ∧ p.1 ∈ resp := by
  rcases stage2_fold_entries client names ([], []) p h with h1 | h1
  · simp at h1
  · exact h1

/-! ### Task-definition-resolution stage (stage3) -/

theorem setInsert_ne_nil (x : String) (s : List String) : setInsert x s ≠ [] := by
  intro h0
  have : x ∈ setInsert x s := (mem_setInsert x x s).mpr (Or.inl rfl)
  rw [h0] at this
  simp at this

theorem descStep_mono_fst (t2s : List (String × String))
    (acc : List String × List (String × List String)) (task : TaskDesc) (d : String)
    (h : d ∈ acc.1) : d ∈ (descStep t2s acc task).1 :=
  (mem_setInsert d _ acc.1).mpr (Or.inr h)

theorem descStep_mono_snd (t2s : List (String × String))
    (acc : List String × List (String × List String)) (task : TaskDesc) (d x : String)
    (h : x ∈ lookupD acc.2 d []) : x ∈ lookupD (descStep t2s acc task).2 d [] := by
  unfold descStep
  by_cases hd : task.taskDefinitionArn = d
  · rw [hd, lookupD_tdsInsert_self]
    exact (mem_setInsert x _ _).mpr (Or.inr h)
  · rw [lookupD_tdsInsert_ne _ _ _ _ (fun he => hd he.symm)]
    exact h

theorem tasksFold_mono (t2s : List (String × String)) (resp : List TaskDesc) (d x : String) :
    ∀ acc : List String × List (String × List String),
      (d ∈ acc.1 → d ∈ (resp.foldl (descStep t2s) acc).1) ∧
      (x ∈ lookupD acc.2 d [] → x ∈ lookupD (resp.foldl (descStep t2s) acc).2 d []) := by
  induction resp with
  | nil => exact fun acc => ⟨id, id⟩
  | cons task ts ih =>
      intro acc
      simp only [List.foldl_cons]
      constructor
      · intro h
        exact (ih (descStep t2s acc task)).1 (descStep_mono_fst t2s acc task d h)
      · intro h
        exact (ih (descStep t2s acc task)).2 (descStep_mono_snd t2s acc task d x h)

theorem batchStep_mono (client : Client) (t2s : List (String × String)) (c : List String)
    (acc : List String × List (String × List String)) (d x : String) :
    (d ∈ acc.1 → d ∈ (batchStep client t2s acc c).1) ∧
    (x ∈ lookupD acc.2 d [] → x ∈ lookupD (batchStep client t2s acc c).2 d []) := by
  unfold batchStep
  cases client.describeTasks c with
  | none => exact ⟨id, id⟩
  | some tasks => exact tasksFold_mono t2s tasks d x acc

theorem stage3_fold_mono (client : Client) (t2s : List (String × String))
    (cs : List (List String)) (d x : String) :
    ∀ acc : List String × List (String × List String),
      (d ∈ acc.1 → d ∈ (cs.foldl (batchStep client t2s) acc).1) ∧
      (x ∈ lookupD acc.2 d [] → x ∈ lookupD (cs.foldl (batchStep client t2s) acc).2 d []) := by
  induction cs with
  | nil => exact fun acc => ⟨id, id⟩
  | cons c cs ih =>
      intro acc
      simp only [List.foldl_cons]
      constructor
      · intro h
        exact (ih (batchStep client t2s acc c)).1 ((batchStep_mono client t2s c acc d x).1 h)
      · intro h
        exact (ih (batchStep client t2s acc c)).2 ((batchStep_mono client t2s c acc d x).2 h)

theorem tasksFold_insert (t2s : List (String × String)) (resp : List TaskDesc)
    (task : TaskDesc) (htask : task ∈ resp) :
    ∀ acc : List String × List (String × List String),
      task.taskDefinitionArn ∈ (resp.foldl (descStep t2s) acc).1 ∧
      lookupD t2s task.taskArn "" ∈
        lookupD (resp.foldl (descStep t2s) acc).2 task.taskDefinitionArn [] := by
  induction resp with
  | nil => simp at htask
  | cons t0 ts ih =>
      intro acc
      simp only [List.foldl_cons]
      rcases List.mem_cons.mp htask with h | h
      · subst h
        constructor
        · refine (tasksFold_mono t2s ts task.taskDefinitionArn "" (descStep t2s acc task)).1 ?_
          exact (mem_setInsert _ _ _).mpr (Or.inl rfl)
        · refine (tasksFold_mono t2s ts task.taskDefinitionArn
            (lookupD t2s task.taskArn "") (descStep t2s acc task)).2 ?_
          unfold descStep
          rw [lookupD_tdsInsert_self]
          exact (mem_setInsert _ _ _).mpr (Or.inl rfl)
      · exact ih h (descStep t2s acc t0)

theorem stage3_fold_insert (client : Client) (t2s : List (String × String))
    (cs : List (List String)) (c : List String) (resp : List TaskDesc) (task : TaskDesc)
    (hc : c ∈ cs) (hr : client.describeTasks c = some resp) (htask : task ∈ resp) :
    ∀ acc : List String × List (String × List String),
      task.taskDefinitionArn ∈ (cs.foldl (batchStep client t2s) acc).1 ∧
      lookupD t2s task.taskArn "" ∈
        lookupD (cs.foldl (batchStep client t2s) acc).2 task.taskDefinitionArn [] := by
  induction cs with
  | nil => simp at hc
  | cons c0 cs ih =>
      intro acc
      simp only [List.foldl_cons]
      rcases List.mem_cons.mp hc with h | h
      · subst h
        constructor
        · refine (stage3_fold_mono client t2s cs task.taskDefinitionArn ""
            (batchStep client t2s acc c)).1 ?_
          unfold batchStep
          rw [hr]
          exact (tasksFold_insert t2s resp task htask acc).1
        · refine (stage3_fold_mono client t2s cs task.taskDefinitionArn
            (lookupD t2s task.taskArn "") (batchStep client t2s acc c)).2 ?_
          unfold batchStep
          rw [hr]
          exact (tasksFold_insert t2s resp task htask acc).2
      · exact ih h (batchStep client t2s acc c0)

/-- A task returned by a successful batch description contributes its
definition to the definition set and its owning service (reverse-index
lookup) to the ownership set of that definition. -/
theorem stage3_insert (client : Client) (taskArns : List String)
    (t2s : List (String × String)) (c : List String) (resp : List TaskDesc) (task : TaskDesc)
    (hc : c ∈ chunks100 taskArns) (hr : client.describeTasks c = some resp)
    (htask : task ∈ resp) :
    task.taskDefinitionArn ∈ (stage3 client taskArns t2s).1 ∧
    lookupD t2s task.taskArn "" ∈
      lookupD (stage3 client taskArns t2s).2 task.taskDefinitionArn [] :=
  stage3_fold_insert client t2s (chunks100 taskArns) c resp task hc hr htask ([], [])

theorem tasksFold_pres (t2s : List (String × String)) (resp : List TaskDesc)
    (P : String → List String → Prop)
    (hgrow : ∀ task ∈ resp, ∀ svcs, P task.taskDefinitionArn svcs →
      P task.taskDefinitionArn (setInsert (lookupD t2s task.taskArn "") svcs))
    (hnew : ∀ task ∈ resp, P task.taskDefinitionArn [lookupD t2s task.taskArn ""]) :
    ∀ acc : List String × List (String × List String), (∀ p ∈ acc.2, P p.1 p.2) →
      ∀ p ∈ (resp.foldl (descStep t2s) acc).2, P p.1 p.2 := by
  induction resp with
  | nil => exact fun acc hacc => hacc
  | cons task ts ih =>
      intro acc hacc
      simp only [List.foldl_cons]
      refine ih (fun t ht => hgrow t (List.mem_cons_of_mem _ ht))
        (fun t ht => hnew t (List.mem_cons_of_mem _ ht)) (descStep t2s acc task) ?_
      unfold descStep
      exact tdsInsert_entries P task.taskDefinitionArn (lookupD t2s task.taskArn "") acc.2 hacc
        (hgrow task (List.mem_cons_self _ _)) (hnew task (List.mem_cons_self _ _))

theorem stage3_fold_pres (client : Client) (t2s : List (String × String))
    (cs : List (List String)) (P : String → List String → Prop)
    (hgrow : ∀ c ∈ cs, ∀ resp, client.describeTasks c = some resp → ∀ task ∈ resp,
      ∀ svcs, P task.taskDefinitionArn svcs →
        P task.taskDefinitionArn (setInsert (lookupD t2s task.taskArn "") svcs))
    (hnew : ∀ c ∈ cs, ∀ resp, client.describeTasks c = some resp → ∀ task ∈ resp,
      P task.taskDefinitionArn [lookupD t2s task.taskArn ""]) :
    ∀ acc : List String × List (String × List String), (∀ p ∈ acc.2, P p.1 p.2) →
      ∀ p ∈ (cs.foldl (batchStep client t2s) acc).2, P p.1 p.2 := by
  induction cs with
  | nil => exact fun acc hacc => hacc
  | cons c cs ih =>
      intro acc hacc
      simp only [List.foldl_cons]
      refine ih (fun c0 hc0 => hgrow c0 (List.mem_cons_of_mem _ hc0))
        (fun c0 hc0 => hnew c0 (List.mem_cons_of_mem _ hc0)) (batchStep client t2s acc c) ?_
      unfold batchStep
      cases hr : client.describeTasks c with
      | none => exact hacc
      | some tasks =>
          exact tasksFold_pres t2s tasks P
            (hgrow c (List.mem_cons_self _ _) tasks hr)
            (hnew c (List.mem_cons_self _ _) tasks hr) acc hacc

/-- Every member of every stage-3 ownership set is the reverse-index
lookup of a task returned by some successful batch of the run. -/
theorem stage3_entries (client : Client) (taskArns : List String)
    (t2s : List (String × String)) (Q : String → String → Prop)
    (hq : ∀ c ∈ chunks100 taskArns, ∀ resp, client.describeTasks c = some resp →
      ∀ task ∈ resp, Q task.taskDefinitionArn (lookupD t2s task.taskArn "")) :
    ∀ p ∈ (stage3 client taskArns t2s).2, ∀ x ∈ p.2, Q p.1 x := by
  refine stage3_fold_pres client t2s (chunks100 taskArns)
    (fun d svcs => ∀ x ∈ svcs, Q d x) ?_ ?_ ([], []) (by simp)
  · intro c hc resp hr task htask svcs hsvcs x hx
    rcases (mem_setInsert x _ svcs).mp hx with h | h
    · subst h
      exact hq c hc resp hr task htask
    · exact hsvcs x h
  · intro c hc resp hr task htask x hx
    simp only [List.mem_singleton] at hx
    subst hx
    exact hq c hc resp hr task htask

/-- Stage-3 ownership sets are duplicate-free. -/
theorem stage3_nodup (client : Client) (taskArns : List String)
    (t2s : List (String × String)) :
    ∀ p ∈ (stage3 client taskArns t2s).2, p.2.Nodup := by
  refine stage3_fold_pres client t2s (chunks100 taskArns) (fun _ svcs => svcs.Nodup)
    ?_ ?_ ([], []) (by simp)
  · intro _ _ _ _ _ _ svcs h
    exact setInsert_nodup _ svcs h
  · intro _ _ _ _ _ _
    exact List.nodup_singleton _

theorem descStep_nonempty (t2s : List (String × String))
    (acc : List String × List (String × List String)) (task : TaskDesc)
    (hinv : ∀ d ∈ acc.1, lookupD acc.2 d [] ≠ []) :
    ∀ d ∈ (descStep t2s acc task).1, lookupD (descStep t2s acc task).2 d [] ≠ [] := by
  intro d hd
  unfold descStep at hd ⊢
  by_cases he : task.taskDefinitionArn = d
  · rw [he, lookupD_tdsInsert_self]
    exact setInsert_ne_nil _ _
  · rw [lookupD_tdsInsert_ne _ _ _ _ (fun h0 => he h0.symm)]
    rcases (mem_setInsert d _ acc.1).mp hd with h | h
    · exact absurd h.symm he
    · exact hinv d h

theorem stage3_fold_nonempty (client : Client) (t2s : List (String × String))
    (cs : List (List String)) :
    ∀ acc : List String × List (String × List String),
      (∀ d ∈ acc.1, lookupD acc.2 d [] ≠ []) →
      ∀ d ∈ (cs.foldl (batchStep client t2s) acc).1,
        lookupD (cs.foldl (batchStep client t2s) acc).2 d [] ≠ [] := by
  induction cs with
  | nil => exact fun acc hacc => hacc
  | cons c cs ih =>
      intro acc hacc
      simp only [List.foldl_cons]
      refine ih (batchStep client t2s acc c) ?_
      unfold batchStep
      cases client.describeTasks c with
      | none => exact hacc
      | some tasks =>
          clear ih
          induction tasks generalizing acc with
          | nil => exact hacc
          | cons task ts ih2 =>
              simp only [List.foldl_cons]
              exact ih2 (descStep t2s acc task) (descStep_nonempty t2s acc task hacc)

/-- Every definition recorded by stage 3 has a non-empty ownership set. -/
theorem stage3_nonempty (client : Client) (taskArns : List String)
    (t2s : List (String × String)) :
    ∀ d ∈ (stage3 client taskArns t2s).1,
      lookupD (stage3 client taskArns t2s).2 d [] ≠ [] :=
  stage3_fold_nonempty client t2s (chunks100 taskArns) ([], []) (by simp)

/-! ### Image-resolution stage (stage4) -/

theorem imgFold_mono (services : List String) (images : List String) (img x : String) :
    ∀ acc : List (String × List String), x ∈ lookupD acc img [] →
      x ∈ lookupD (images.foldl (fun acc image => imgInsert image services acc) acc) img [] := by
  induction images with
  | nil => exact fun acc h => h
  | cons i is ih =>
      intro acc h
      simp only [List.foldl_cons]
      refine ih (imgInsert i services acc) ?_
      by_cases he : i = img
      · subst he
        rw [lookupD_imgInsert_self]
        exact (mem_addAll x services _).mpr (Or.inr h)
      · rw [lookupD_imgInsert_ne _ _ _ _ (fun h0 => he h0.symm)]
        exact h

theorem imgFold_insert (services : List String) (images : List String) (img x : String)
    (himg : img ∈ images) (hx : x ∈ services) :
    ∀ acc : List (String × List String),
      x ∈ lookupD (images.foldl (fun acc image => imgInsert image services acc) acc) img [] := by
  induction images with
  | nil => simp at himg
  | cons i is ih =>
      intro acc
      simp only [List.foldl_cons]
      rcases List.mem_cons.mp himg with h | h
      · subst h
        refine imgFold_mono services is img x (imgInsert img services acc) ?_
        rw [lookupD_imgInsert_self]
        exact (mem_addAll x services _).mpr (Or.inl hx)
      · exact ih h (imgInsert i services acc)

theorem defStep_mono (client : Client) (own : List (String × List String))
    (acc : List (String × List String)) (d img x : String)
    (h : x ∈ lookupD acc img []) : x ∈ lookupD (defStep client own acc d) img [] := by
  unfold defStep
  cases client.describeTaskDefinition d with
  | none => exact h
  | some images => exact imgFold_mono (lookupD own d []) images img x acc h

theorem stage4_fold_mono (client : Client) (own : List (String × List String))
    (ds : List String) (img x : String) :
    ∀ acc : List (String × List String), x ∈ lookupD acc img [] →
      x ∈ lookupD (ds.foldl (defStep client own) acc) img [] := by
  induction ds with
  | nil => exact fun acc h => h
  | cons d ds ih =>
      intro acc h
      simp only [List.foldl_cons]
      exact ih (defStep client own acc d) (defStep_mono client own acc d img x h)

/-- A successfully described definition pushes every member of its
ownership set into the entry of every image it declares. -/
theorem stage4_forward (client : Client) (own : List (String × List String))
    (ds : List String) (d : String) (images : List String) (img x : String)
    (hd : d ∈ ds) (hr : client.describeTaskDefinition d = some images)
    (himg : img ∈ images) (hx : x ∈ lookupD own d []) :
    ∀ acc : List (String × List String),
      x ∈ lookupD (ds.foldl (defStep client own) acc) img [] := by
  induction ds with
  | nil => simp at hd
  | cons d0 ds ih =>
      intro acc
      simp only [List.foldl_cons]
      rcases List.mem_cons.mp hd with h | h
      · subst h
        refine stage4_fold_mono client own ds img x (defStep client own acc d) ?_
        unfold defStep
        rw [hr]
        exact imgFold_insert (lookupD own d []) images img x himg hx acc
      · exact ih h (defStep client own acc d0)

theorem imgFold_backward (services : List String) (images : List String) (img x : String) :
    ∀ acc : List (String × List String),
      x ∈ lookupD (images.foldl (fun acc image => imgInsert image services acc) acc) img [] →
      x ∈ lookupD acc img [] ∨ (img ∈ images ∧ x ∈ services) := by
  induction images with
  | nil => exact fun acc h => Or.inl h
  | cons i is ih =>
      intro acc h
      simp only [List.foldl_cons] at h
      rcases ih (imgInsert i services acc) h with h1 | h1
      · by_cases he : i = img
        · subst he
          rw [lookupD_imgInsert_self] at h1
          rcases (mem_addAll x services _).mp h1 with h2 | h2
          · exact Or.inr ⟨List.mem_cons_self _ _, h2⟩
          · exact Or.inl h2
        · rw [lookupD_imgInsert_ne _ _ _ _ (fun h0 => he h0.symm)] at h1
          exact Or.inl h1
      · exact Or.inr ⟨List.mem_cons_of_mem _ h1.1, h1.2⟩

theorem stage4_fold_backward (client : Client) (own : List (String × List String))
    (ds : List String) (img x : String) :
    ∀ acc : List (String × List String),
      x ∈ lookupD (ds.foldl (defStep client own) acc) img [] →
      x ∈ lookupD acc img [] ∨
        ∃ d ∈ ds, ∃ images, client.describeTaskDefinition d = some images ∧
          img ∈ images ∧ x ∈ lookupD own d [] := by
  induction ds with
  | nil => exact fun acc h => Or.inl h
  | cons d ds ih =>
      intro acc h
      simp only [List.foldl_cons] at h
      rcases ih (defStep client own acc d) h with h1 | h1
      · unfold defStep at h1
        cases hr : client.describeTaskDefinition d with
        | none =>
            rw [hr] at h1
            exact Or.inl h1
        | some images =>
            rw [hr] at h1
            simp only at h1
            rcases imgFold_backward (lookupD own d []) images img x acc h1 with h2 | h2
            · exact Or.inl h2
            · exact Or.inr ⟨d, List.mem_cons_self _ _, images, hr, h2.1, h2.2⟩
      · rcases h1 with ⟨d0, hd0, images, hr, himg, hx⟩
        exact Or.inr ⟨d0, List.mem_cons_of_mem _ hd0, images, hr, himg, hx⟩

/-- A service appears in the final entry of an image only because some
definition of the work list was described successfully, declares that
image, and owns that service. -/
theorem stage4_backward (client : Client) (own : List (String × List String))
    (ds : List String) (img x : String)
    (h : x ∈ lookupD (stage4 client ds own) img []) :
    ∃ d ∈ ds, ∃ images, client.describeTaskDefinition d = some images ∧
      img ∈ images ∧ x ∈ lookupD own d [] := by
  rcases stage4_fold_backward client own ds img x [] h with h1 | h1
  · simp [lookupD] at h1
  · exact h1

theorem imgFold_pres (services : List String) (images : List String)
    (P : String → List String → Prop)
    (hgrow : ∀ img ∈ images, ∀ s0, P img s0 → P img (addAll services s0))
    (hnew : ∀ img ∈ images, P img (addAll services [])) :
    ∀ acc : List (String × List String), (∀ p ∈ acc, P p.1 p.2) →
      ∀ p ∈ images.foldl (fun acc image => imgInsert image services acc) acc, P p.1 p.2 := by
  induction images with
  | nil => exact fun acc hacc => hacc
  | cons i is ih =>
      intro acc hacc
      simp only [List.foldl_cons]
      refine ih (fun i0 hi0 => hgrow i0 (List.mem_cons_of_mem _ hi0))
        (fun i0 hi0 => hnew i0 (List.mem_cons_of_mem _ hi0)) (imgInsert i services acc) ?_
      exact imgInsert_entries P i services acc hacc
        (hgrow i (List.mem_cons_self _ _)) (hnew i (List.mem_cons_self _ _))

theorem stage4_fold_pres (client : Client) (own : List (String × List String))
    (ds : List String) (P : String → List String → Prop)
    (hgrow : ∀ d ∈ ds, ∀ images, client.describeTaskDefinition d = some images →
      ∀ img ∈ images, ∀ s0, P img s0 → P img (addAll (lookupD own d []) s0))
    (hnew : ∀ d ∈ ds, ∀ images, client.describeTaskDefinition d = some images →
      ∀ img ∈ images, P img (addAll (lookupD own d []) [])) :
    ∀ acc : List (String × List String), (∀ p ∈ acc, P p.1 p.2) →
      ∀ p ∈ ds.foldl (defStep client own) acc, P p.1 p.2 := by
  induction ds with
  | nil => exact fun acc hacc => hacc
  | cons d ds ih =>
      intro acc hacc
      simp only [List.foldl_cons]
      refine ih (fun d0 hd0 => hgrow d0 (List.mem_cons_of_mem _ hd0))
        (fun d0 hd0 => hnew d0 (List.mem_cons_of_mem _ hd0)) (defStep client own acc d) ?_
      unfold defStep
      cases hr : client.describeTaskDefinition d with
      | none => exact hacc
      | some images =>
          exact imgFold_pres (lookupD own d []) images P
            (hgrow d (List.mem_cons_self _ _) images hr)
            (hnew d (List.mem_cons_self _ _) images hr) acc hacc

/-- Entry invariant of the final mapping. -/
theorem stage4_entries (client : Client) (own : List (String × List String))
    (ds : List String) (P : String → List String → Prop)
    (hgrow : ∀ d ∈ ds, ∀ images, client.describeTaskDefinition d = some images →
      ∀ img ∈ images, ∀ s0, P img s0 → P img (addAll (lookupD own d []) s0))
    (hnew : ∀ d ∈ ds, ∀ images, client.describeTaskDefinition d = some images →
      ∀ img ∈ images, P img (addAll (lookupD own d []) [])) :
    ∀ p ∈ stage4 client ds own, P p.1 p.2 :=
  stage4_fold_pres client own ds P hgrow hnew [] (by simp)

/-- The service set stored under any image of the final mapping is
duplicate-free. -/
theorem stage4_nodup_lookup (client : Client) (own : List (String × List String))
    (ds : List String) (img : String) : (lookupD (stage4 client ds own) img []).Nodup := by
  have hent : ∀ p ∈ stage4 client ds own, p.2.Nodup := by
    refine stage4_entries client own ds (fun _ svcs => svcs.Nodup) ?_ ?_
    · intro _ _ _ _ _ _ s0 h
      exact addAll_nodup _ s0 h
    · intro _ _ _ _ _ _
      exact addAll_nodup _ [] (List.nodup_nil)
  rcases lookupD_eq_or_mem (stage4 client ds own) img ([] : List String) with h | h
  · rw [h]
    exact List.nodup_nil
  · exact hent _ h

/-! ### Run-level helpers -/

theorem deriveNames_mem (l : List String) (arn n : String) :
    ∀ ns, deriveNames l = some ns → arn ∈ l → shortName arn = some n → n ∈ ns := by
  induction l with
  | nil =>
      intro ns _ ha
      simp at ha
  | cons a rest ih =>
      intro ns hd ha hs
      unfold deriveNames at hd
      cases h1 : shortName a with
      | none =>
          rw [h1] at hd
          simp at hd
      | some n0 =>
          rw [h1] at hd
          cases h2 : deriveNames rest with
          | none =>
              rw [h2] at hd
              simp at hd
          | some ns0 =>
              rw [h2] at hd
              simp only [Option.some.injEq] at hd
              subst hd
              rcases List.mem_cons.mp ha with ha | ha
              · subst ha
                rw [h1] at hs
                simp only [Option.some.injEq] at hs
                subst hs
                exact List.mem_cons_self _ _
              · exact List.mem_cons_of_mem _ (ih ns0 h2 ha hs)

/-- Structure of a run that ends in a report: enumeration succeeded and
was non-empty, every short name could be derived, some task was found,
and the report is the output of the four chained stages. -/
theorem run_report_inv (client : Client) (final : List (String × List String))
    (h : run client = RunResult.report final) :
    ∃ svcArns names, client.listServices = some svcArns ∧ svcArns ≠ [] ∧
      deriveNames svcArns = some names ∧ (stage2 client names).1 ≠ [] ∧
      final = stage4 client (stage3 client (stage2 client names).1 (stage2 client names).2).1
        (stage3 client (stage2 client names).1 (stage2 client names).2).2 := by
  unfold run at h
  cases hsvc : client.listServices with
  | none =>
      rw [hsvc] at h
      simp at h
  | some svcArns =>
      rw [hsvc] at h
      dsimp only at h
      by_cases hne : svcArns = []
      · rw [if_pos hne] at h
        simp at h
      · rw [if_neg hne] at h
        cases hder : deriveNames svcArns with
        | none =>
            rw [hder] at h
            simp at h
        | some names =>
            rw [hder] at h
            dsimp only at h
            by_cases h2 : (stage2 client names).1 = []
            · rw [if_pos h2] at h
              simp at h
            · rw [if_neg h2] at h
              simp only [RunResult.report.injEq] at h
              exact ⟨svcArns, names, rfl, hne, hder, h2, h.symm⟩

/-! ### The claims -/

/-- C6: zero enumerated services makes the run end in the successful
"No services found." state, and a non-empty service list whose task
listings leave the global task list empty makes it end in the successful
"No tasks found." state; neither is the fatal or panic state and neither
carries an image report. -/
theorem claim6_empty_exits :
    (∀ client : Client, client.listServices = some [] → run client = RunResult.noServices) ∧
    (∀ (client : Client) (svcArns names : List String),
      client.listServices = some svcArns → svcArns ≠ [] →
      deriveNames svcArns = some names → (stage2 client names).1 = [] →
      run client = RunResult.noTasks) := by
  constructor
  · intro client h
    unfold run
    rw [h]
    simp
  · intro client svcArns names hsvc hne hder h2
    unfold run
    rw [hsvc]
    dsimp only
    rw [if_neg hne, hder]
    dsimp only
    rw [if_pos h2]

/-- C6 witness: a cluster with no services reports "no services"; one
whose single service has no running tasks reports "no tasks". -/
theorem claim6_witness :
    run c6Empty = RunResult.noServices ∧ run c6NoTasks = RunResult.noTasks :=
  ⟨claim6_empty_exits.1 c6Empty rfl,
   claim6_empty_exits.2 c6NoTasks ["svc/one"] ["one"] rfl (by decide) (by decide) (by decide)⟩

/-- C7: a failed per-service task listing makes that service contribute
nothing to stage 2 — the outcome is the fold with the service removed —
and a failed bulk description makes that batch contribute nothing to
stage 3 — the outcome is the fold with the batch removed. Sibling items
and later stages are unaffected. -/
theorem claim7_isolation :
    (∀ (client : Client) (s0 : String) (names1 names2 : List String),
      client.listTasks s0 = none →
      stage2 client (names1 ++ s0 :: names2) = stage2 client (names1 ++ names2)) ∧
    (∀ (client : Client) (t2s : List (String × String)) (taskArns : List String)
      (cs1 cs2 : List (List String)) (c : List String),
      chunks100 taskArns = cs1 ++ c :: cs2 → client.describeTasks c = none →
      stage3 client taskArns t2s = (cs1 ++ cs2).foldl (batchStep client t2s) ([], [])) := by
  constructor
  · intro client s0 names1 names2 h
    unfold stage2
    rw [List.foldl_append, List.foldl_append, List.foldl_cons]
    have hid : listStep client (names1.foldl (listStep client) ([], [])) s0
        = names1.foldl (listStep client) ([], []) := by
      unfold listStep
      rw [h]
    rw [hid]
  · intro client t2s taskArns cs1 cs2 c hc h
    unfold stage3
    rw [hc, List.foldl_append, List.foldl_append, List.foldl_cons]
    have hid : batchStep client t2s (cs1.foldl (batchStep client t2s) ([], [])) c
        = cs1.foldl (batchStep client t2s) ([], []) := by
      unfold batchStep
      rw [h]
    rw [hid]

/-- C7 witness: with a client failing on service `bad` and on the batch
`[x]`, the failing items drop out of both folds. -/
theorem claim7_witness :
    stage2 c7Client (["good"] ++ "bad" :: []) = stage2 c7Client (["good"] ++ []) ∧
    stage3 c7Client ["x"] [] = ([] ++ []).foldl (batchStep c7Client []) ([], []) :=
  ⟨claim7_isolation.1 c7Client "bad" ["good"] [] (by decide),
   claim7_isolation.2 c7Client [] ["x"] [] [] ["x"] (by decide) (by decide)⟩

/-- C10: every image key of a reported final mapping carries at least one
owning service, so the reporting loop never takes its
"No active services using this image" branch: a definition enters the
work list only together with at least one owning service, and every image
entry is populated from such a non-empty ownership set. -/
theorem claim10_no_orphan_images (client : Client) (final : List (String × List String))
    (hrun : run client = RunResult.report final) :
    ∀ p ∈ final, p.2 ≠ [] := by
  rcases run_report_inv client final hrun with ⟨svcArns, names, hsvc, hne, hder, h2, hfin⟩
  subst hfin
  intro p hp
  have hnonempty := stage3_nonempty client (stage2 client names).1 (stage2 client names).2
  refine stage4_entries client
    (stage3 client (stage2 client names).1 (stage2 client names).2).2
    (stage3 client (stage2 client names).1 (stage2 client names).2).1
    (fun _ svcs => svcs ≠ []) ?_ ?_ p hp
  · intro d hd images hr img himg s0 h0
    exact addAll_ne_nil_of_ne _ s0 h0
  · intro d hd images hr img himg
    exact addAll_ne_nil_of_src _ [] (hnonempty d hd)

/-- C10 witness: the single image of the one-service run carries its
owning service. -/
theorem claim10_witness : (("img1", ["a"]) : String × List String).2 ≠ [] :=
  claim10_no_orphan_images c8Client [("img1", ["a"])] (by decide) ("img1", ["a"]) (by decide)

/-- C2: a task definition reachable from services `A` and `B` — each with
a successfully described task running it — grants both `A` and `B` to the
final owning set of every image the definition declares, and that owning
set is duplicate-free (set semantics). -/
theorem claim2_union (client : Client) (taskArns : List String)
    (t2s : List (String × String)) (cA cB : List String) (respA respB : List TaskDesc)
    (tA tB d A B : String) (images : List String) (img : String)
    (hcA : cA ∈ chunks100 taskArns) (hrA : client.describeTasks cA = some respA)
    (htA : (⟨tA, d⟩ : TaskDesc) ∈ respA) (hA : lookupD t2s tA "" = A)
    (hcB : cB ∈ chunks100 taskArns) (hrB : client.describeTasks cB = some respB)
    (htB : (⟨tB, d⟩ : TaskDesc) ∈ respB) (hB : lookupD t2s tB "" = B)
    (hd : client.describeTaskDefinition d = some images) (himg : img ∈ images) :
    A ∈ lookupD (stage4 client (stage3 client taskArns t2s).1
        (stage3 client taskArns t2s).2) img [] ∧
    B ∈ lookupD (stage4 client (stage3 client taskArns t2s).1
        (stage3 client taskArns t2s).2) img [] ∧
    (lookupD (stage4 client (stage3 client taskArns t2s).1
        (stage3 client taskArns t2s).2) img []).Nodup := by
  have hA3 := stage3_insert client taskArns t2s cA respA ⟨tA, d⟩ hcA hrA htA
  have hB3 := stage3_insert client taskArns t2s cB respB ⟨tB, d⟩ hcB hrB htB
  refine ⟨?_, ?_, stage4_nodup_lookup client _ _ img⟩
  · refine stage4_forward client (stage3 client taskArns t2s).2
      (stage3 client taskArns t2s).1 d images img A hA3.1 hd himg ?_ []
    rw [← hA]
    exact hA3.2
  · refine stage4_forward client (stage3 client taskArns t2s).2
      (stage3 client taskArns t2s).1 d images img B hB3.1 hd himg ?_ []
    rw [← hB]
    exact hB3.2

/-- C2 witness: tasks `tA` (service `A`) and `tB` (service `B`) both run
`def-1`; its image `img-1` ends up owned by both `A` and `B` without
duplicates. -/
theorem claim2_witness :
    "A" ∈ lookupD (stage4 c2Client
        (stage3 c2Client ["tA", "tB"] [("tA", "A"), ("tB", "B")]).1
        (stage3 c2Client ["tA", "tB"] [("tA", "A"), ("tB", "B")]).2) "img-1" [] ∧
    "B" ∈ lookupD (stage4 c2Client
        (stage3 c2Client ["tA", "tB"] [("tA", "A"), ("tB", "B")]).1
        (stage3 c2Client ["tA", "tB"] [("tA", "A"), ("tB", "B")]).2) "img-1" [] ∧
    (lookupD (stage4 c2Client
        (stage3 c2Client ["tA", "tB"] [("tA", "A"), ("tB", "B")]).1
        (stage3 c2Client ["tA", "tB"] [("tA", "A"), ("tB", "B")]).2) "img-1" []).Nodup :=
  claim2_union c2Client ["tA", "tB"] [("tA", "A"), ("tB", "B")] ["tA", "tB"] ["tA", "tB"]
    [⟨"tA", "def-1"⟩, ⟨"tB", "def-1"⟩] [⟨"tA", "def-1"⟩, ⟨"tB", "def-1"⟩]
    "tA" "tB" "def-1" "A" "B" ["img-1"] "img-1"
    (by decide) (by decide) (by decide) (by decide) (by decide) (by decide) (by decide)
    (by decide) (by decide) (by decide)

/-- C8: in the final state of a run against a client honoring the API
contract (a bulk description returns only tasks of the requested batch; a
definition description returns only non-empty image URIs), every service
name in any definition-ownership or image-ownership set is one of the
short names derived from the initial enumeration (no synthetic names),
every image key is non-empty, and no ownership set holds duplicates. -/
theorem claim8_invariants (client : Client) (svcArns names taskArns : List String)
    (t2s : List (String × String)) (defs : List String)
    (own final : List (String × List String))
    (hsvc : client.listServices = some svcArns)
    (hder : deriveNames svcArns = some names)
    (hs2 : stage2 client names = (taskArns, t2s))
    (hs3 : stage3 client taskArns t2s = (defs, own))
    (hs4 : stage4 client defs own = final)
    (hbatch : ∀ batch resp, client.describeTasks batch = some resp →
      ∀ task ∈ resp, task.taskArn ∈ batch)
    (himg : ∀ td resp, client.describeTaskDefinition td = some resp → ∀ i ∈ resp, i ≠ "") :
    (∀ p ∈ own, (∀ x ∈ p.2, x ∈ names) ∧ p.2.Nodup) ∧
    (∀ p ∈ final, p.1 ≠ "" ∧ (∀ x ∈ p.2, x ∈ names) ∧ p.2.Nodup) := by
  have e1 : taskArns = (stage2 client names).1 := by rw [hs2]
  have e2 : t2s = (stage2 client names).2 := by rw [hs2]
  subst e1
  subst e2
  have e3 : defs = (stage3 client (stage2 client names).1 (stage2 client names).2).1 := by
    rw [hs3]
  have e4 : own = (stage3 client (stage2 client names).1 (stage2 client names).2).2 := by
    rw [hs3]
  subst e3
  subst e4
  subst hs4
  have hlook_names : ∀ c ∈ chunks100 (stage2 client names).1, ∀ resp,
      client.describeTasks c = some resp → ∀ task ∈ resp,
        lookupD (stage2 client names).2 task.taskArn "" ∈ names := by
    intro c hc resp hr task htask
    have harn : task.taskArn ∈ (stage2 client names).1 :=
      mem_of_mem_chunks100 _ c task.taskArn hc (hbatch c resp hr task htask)
    have hkey := stage2_keys client names task.taskArn harn
    have hpair := lookupD_mem_of_key (stage2 client names).2 task.taskArn "" hkey
    exact (stage2_entries client names _ hpair).1
  have hown : ∀ p ∈ (stage3 client (stage2 client names).1 (stage2 client names).2).2,
      ∀ x ∈ p.2, x ∈ names :=
    stage3_entries client (stage2 client names).1 (stage2 client names).2
      (fun _ x => x ∈ names) hlook_names
  have hownD : ∀ d, ∀ x ∈ lookupD
      (stage3 client (stage2 client names).1 (stage2 client names).2).2 d [], x ∈ names := by
    intro d x hx
    rcases lookupD_eq_or_mem
        (stage3 client (stage2 client names).1 (stage2 client names).2).2 d
        ([] : List String) with h | h
    · rw [h] at hx
      simp at hx
    · exact hown _ h x hx
  refine ⟨fun p hp => ⟨hown p hp,
    stage3_nodup client (stage2 client names).1 (stage2 client names).2 p hp⟩, ?_⟩
  refine stage4_entries client _ _
    (fun i svcs => i ≠ "" ∧ (∀ x ∈ svcs, x ∈ names) ∧ svcs.Nodup) ?_ ?_
  · intro d hd images hr i hi s0 hP
    refine ⟨hP.1, ?_, addAll_nodup _ s0 hP.2.2⟩
    intro x hx
    rcases (mem_addAll x _ s0).mp hx with h | h
    · exact hownD d x h
    · exact hP.2.1 x h
  · intro d hd images hr i hi
    refine ⟨himg d images hr i hi, ?_, addAll_nodup _ [] List.nodup_nil⟩
    intro x hx
    rcases (mem_addAll x _ []).mp hx with h | h
    · exact hownD d x h
    · simp at h

/-- C8 witness: the honest one-service run yields the image entry
`img1 → [a]` whose key is non-empty, whose member is the derived short
name, and whose set is duplicate-free. -/
theorem claim8_witness :
    ("img1" : String) ≠ "" ∧ (∀ x ∈ (["a"] : List String), x ∈ ["a"]) ∧
      (["a"] : List String).Nodup :=
  (claim8_invariants c8Client ["svc/a"] ["a"] ["t1"] [("t1", "a")] ["d1"] [("d1", ["a"])]
    [("img1", ["a"])] rfl (by decide) (by decide) (by decide) (by decide)
    (by
      intro batch resp hr task htask
      simp only [c8Client, Option.some.injEq] at hr
      subst hr
      rcases List.mem_map.mp htask with ⟨t, ht, he⟩
      rw [← he]
      exact ht)
    (by
      intro td resp hr i hi
      simp only [c8Client, Option.some.injEq] at hr
      subst hr
      simp only [List.mem_singleton] at hi
      subst hi
      decide)).2 ("img1", ["a"]) (by decide)

/-- C1: completeness under success. Against a ground-truth world in which
every API call succeeds (and, as in a real cluster, distinct services own
disjoint task sets), a service of the enumeration appears as an owner of
at least one image of the reported final mapping exactly when it has at
least one running task whose task definition declares at least one
container image. -/
theorem claim1_completeness (svcArns : List String) (tasksOf : String → List String)
    (defOf : String → String) (imagesOf : String → List String)
    (names : List String) (final : List (String × List String)) (arn name : String)
    (hder : deriveNames svcArns = some names)
    (hdisj : ∀ n1 n2, n1 ∈ names → n2 ∈ names → n1 ≠ n2 →
      ∀ t, t ∈ tasksOf n1 → t ∉ tasksOf n2)
    (hrun : run (worldClient svcArns tasksOf defOf imagesOf) = RunResult.report final)
    (harn : arn ∈ svcArns) (hname : shortName arn = some name) :
    (∃ img, name ∈ lookupD final img []) ↔
      ∃ t ∈ tasksOf name, imagesOf (defOf t) ≠ [] := by
  set w := worldClient svcArns tasksOf defOf imagesOf with hw
  rcases run_report_inv w final hrun with ⟨svcArns0, names0, hsvc0, hne0, hder0, h20, hfin⟩
  have hsa : svcArns = svcArns0 := by
    have h : some svcArns = some svcArns0 := hsvc0
    exact Option.some_inj.mp h
  subst hsa
  have hns : names = names0 := by
    rw [hder] at hder0
    exact Option.some_inj.mp hder0
  subst hns
  subst hfin
  have hmem : name ∈ names := deriveNames_mem svcArns arn name names hder harn hname
  have hlist : ∀ n, w.listTasks n = some (tasksOf n) := fun n => rfl
  have hdesc : ∀ c : List String,
      w.describeTasks c = some (c.map (fun t => ⟨t, defOf t⟩)) := fun c => rfl
  have hdefs : ∀ d, w.describeTaskDefinition d = some (imagesOf d) := fun d => rfl
  -- the reverse index sends a task to the service that listed it
  have hlookup : ∀ t, t ∈ (stage2 w names).1 →
      lookupD (stage2 w names).2 t "" ∈ names ∧
      t ∈ tasksOf (lookupD (stage2 w names).2 t "") := by
    intro t ht
    have hkey := stage2_keys w names t ht
    have hpair := lookupD_mem_of_key (stage2 w names).2 t "" hkey
    have hent := stage2_entries w names _ hpair
    rcases hent.2 with ⟨resp, hr, hmem2⟩
    rw [hlist _] at hr
    simp only [Option.some.injEq] at hr
    subst hr
    exact ⟨hent.1, hmem2⟩
  constructor
  · rintro ⟨img, himg⟩
    rcases stage4_backward w _ _ img name himg with ⟨d, hd, images, hr, himgmem, hnameown⟩
    rw [hdefs d] at hr
    simp only [Option.some.injEq] at hr
    subst hr
    -- trace the owner back to a listed task
    have htrace := stage3_entries w (stage2 w names).1 (stage2 w names).2
      (fun d0 x => ∃ t, t ∈ (stage2 w names).1 ∧ defOf t = d0 ∧
        lookupD (stage2 w names).2 t "" = x)
      (by
        intro c hc resp hrb task htask
        rw [hdesc c] at hrb
        simp only [Option.some.injEq] at hrb
        subst hrb
        rcases List.mem_map.mp htask with ⟨t, htc, he⟩
        refine ⟨t, mem_of_mem_chunks100 _ c t hc htc, ?_, ?_⟩
        · rw [← he]
        · rw [← he])
    rcases lookupD_eq_or_mem
        (stage3 w (stage2 w names).1 (stage2 w names).2).2 d ([] : List String) with h | h
    · rw [h] at hnameown
      simp at hnameown
    · rcases htrace _ h name hnameown with ⟨t, htarns, hdef, hlook⟩
      rcases hlookup t htarns with ⟨hvn, hvt⟩
      rw [hlook] at hvt
      exact ⟨t, hvt, fun h0 => by rw [hdef] at h0; rw [h0] at himgmem; simp at himgmem⟩
  · rintro ⟨t, ht, himgs⟩
    have htarns : t ∈ (stage2 w names).1 :=
      stage2_fold_mem_fst w names name (tasksOf name) t (hlist name) ht ([], []) hmem
    have hvalue : lookupD (stage2 w names).2 t "" = name := by
      rcases hlookup t htarns with ⟨hvn, hvt⟩
      by_contra hne
      exact hdisj name _ hmem hvn (fun he => hne he.symm) t ht hvt
    rcases exists_chunk_of_mem (stage2 w names).1 t htarns with ⟨c, hc, htc⟩
    have htask : (⟨t, defOf t⟩ : TaskDesc) ∈ c.map (fun x => ⟨x, defOf x⟩) :=
      List.mem_map_of_mem _ htc
    have hins := stage3_insert w (stage2 w names).1 (stage2 w names).2 c
      (c.map (fun x => ⟨x, defOf x⟩)) ⟨t, defOf t⟩ hc (hdesc c) htask
    rcases List.exists_mem_of_ne_nil _ himgs with ⟨img, himg⟩
    refine ⟨img, ?_⟩
    refine stage4_forward w _ _ (defOf t) (imagesOf (defOf t)) img name
      hins.1 (hdefs _) himg ?_ []
    rw [← hvalue]
    exact hins.2

/-- C1 witness: the one-service world (service `svc-a`, task `task-1`,
definition `def-1`, image `repo/app:1`) satisfies the equivalence. -/
theorem claim1_witness :
    (∃ img, "svc-a" ∈ lookupD [("repo/app:1", ["svc-a"])] img []) ↔
      ∃ t ∈ c1TasksOf "svc-a", c1ImagesOf (c1DefOf t) ≠ [] :=
  claim1_completeness c1Arns c1TasksOf c1DefOf c1ImagesOf ["svc-a"]
    [("repo/app:1", ["svc-a"])] "arn:aws:ecs:us-east-1:1:service/demo/svc-a" "svc-a"
    (by decide)
    (by
      intro n1 n2 h1 h2 hne t ht1 ht2
      simp only [List.mem_singleton] at h1 h2
      subst h1
      subst h2
      exact hne rfl)
    (by decide) (by decide) (by decide)

end EcsImages
